import Mathlib

/-!
Verification of the Gemini-Web2API gateway (Go) against its specification.

The embedding below translates the relevant parts of the source into Lean:
strings are modelled as `List Char` (one element per rune), the upstream
wire decoding (`internal/adapter/handler.go`), the Claude streaming block
machine (`internal/claude/streaming.go`), the account pool
(`internal/balancer/balancer.go`), the reconciliation pass
(`cmd/server/main.go`) and the image-generation handler
(`internal/adapter/image_handler.go`).
-/

/- ## Go string helpers -/

/-- Runes considered whitespace by Go `strings.TrimSpace` (the ASCII cases
plus NEL and NBSP from `unicode.IsSpace`). -/
def goIsSpace (c : Char) : Bool :=
  c = ' ' ∨ c = '\t' ∨ c = '\n' ∨ c = '\x0b' ∨ c = '\x0c' ∨ c = '\r' ∨
  c = '\x85' ∨ c = '\xa0'

/-- Go `strings.TrimSpace`. -/
def goTrimSpace (s : List Char) : List Char :=
  ((s.dropWhile goIsSpace).reverse.dropWhile goIsSpace).reverse

/-- The anti-JSON-hijacking marker `)]}'` that prefixes upstream frames. -/
def wireMarker : List Char := [')', ']', '\x7d', '\x27']

/-- Go `strings.TrimPrefix s pre`: drop `pre` when it is a prefix of `s`,
otherwise return `s` unchanged. -/
def goTrimMarker (pre s : List Char) : List Char :=
  if pre <+: s then s.drop pre.length else s

/- ## Escape normalization (handler.go lines 347-351)

The decoder runs five sequential `strings.ReplaceAll` calls, each replacing
a two-character sequence backslash-q by the single character q. -/

/-- One `strings.ReplaceAll` pass replacing the pair backslash-`q` by `q`
(leftmost, non-overlapping, replacements not rescanned). -/
def replaceEsc (q : Char) : List Char → List Char
  | [] => []
  | [c] => [c]
  | c :: d :: rest =>
    if c = '\\' ∧ d = q then q :: replaceEsc q rest
    else c :: replaceEsc q (d :: rest)

/-- The five escape reversals applied by the decoder, in source order. -/
def unescapeGemini (s : List Char) : List Char :=
  replaceEsc ']' (replaceEsc '[' (replaceEsc '_' (replaceEsc '>' (replaceEsc '<' s))))

/- ## Image placeholder stripping (handler.go lines 429-433)

Faithful model of Go regexp
`\s*https?://googleusercontent\.com/image_generation_content/\d+\s*`
replaced by the empty string (leftmost matches, greedy quantifiers; no
backtracking is ever needed for this pattern). -/

/-- Character class of the RE2 `\s` escape: `[\t\n\f\r ]`. -/
def reIsSpace (c : Char) : Bool :=
  c = '\t' ∨ c = '\n' ∨ c = '\x0c' ∨ c = '\r' ∨ c = ' '

def isDigitChar (c : Char) : Bool := '0' ≤ c ∧ c ≤ '9'

/-- Consume an exact literal; `some` holds the remainder. -/
def dropLit : List Char → List Char → Option (List Char)
  | [], s => some s
  | _ :: _, [] => none
  | l :: ls, c :: cs => if c = l then dropLit ls cs else none

/-- The literal part of the placeholder pattern after the scheme. -/
def placeholderHost : List Char :=
  (String.data ("://googleusercontent.com/image_generation_content/"))

/-- Try to match the placeholder regex at the start of `s`; on success
return the remainder after the (greedy) match. -/
def matchPlaceholderAt (s : List Char) : Option (List Char) :=
  match dropLit (String.data ("http")) (s.dropWhile reIsSpace) with
  | none => none
  | some s2 =>
    match dropLit placeholderHost (if s2.head? = some 's' then s2.tail else s2) with
    | none => none
    | some s4 =>
      if s4.takeWhile isDigitChar = [] then none
      else some ((s4.dropWhile isDigitChar).dropWhile reIsSpace)

/-- Scan for leftmost matches, removing each (fuel bounds the scan; every
match consumes at least one character). -/
def filterAux : Nat → List Char → List Char
  | 0, s => s
  | _ + 1, [] => []
  | fuel + 1, c :: rest =>
    match matchPlaceholderAt (c :: rest) with
    | some rem => filterAux fuel rem
    | none => c :: filterAux fuel rest

/-- `filterImagePlaceholders` of handler.go. -/
def filterImagePlaceholders (s : List Char) : List Char :=
  filterAux s.length s

/- ## Delta extraction (parseGeminiResponse, handler.go lines 287-363) -/

/-- Last-seen accumulated text and thought. A single pair is shared across
all candidate indices, exactly as the two local variables of
`parseGeminiResponse`. -/
structure DeltaState where
  lastText : List Char
  lastThoughts : List Char
deriving DecidableEq

/-- Body of the per-candidate closure of `parseGeminiResponse`: compute the
text and thought deltas against the shared state, update the state, apply
escape normalization and placeholder stripping to the text delta, and emit
the chunk when anything remains. -/
def processCandidate (st : DeltaState) (rawText rawThoughts : List Char) :
    DeltaState × Option (List Char × List Char) :=
  let textStep :=
    if st.lastText.length < rawText.length then
      (rawText.drop st.lastText.length, rawText)
    else if st.lastText.length = 0 ∧ 0 < rawText.length then
      (rawText, rawText)
    else (([] : List Char), st.lastText)
  let thoughtStep :=
    if st.lastThoughts.length < rawThoughts.length then
      (rawThoughts.drop st.lastThoughts.length, rawThoughts)
    else if st.lastThoughts.length = 0 ∧ 0 < rawThoughts.length then
      (rawThoughts, rawThoughts)
    else (([] : List Char), st.lastThoughts)
  let st' : DeltaState := ⟨textStep.2, thoughtStep.2⟩
  if textStep.1 = [] ∧ thoughtStep.1 = [] then (st', none)
  else
    let deltaText := filterImagePlaceholders (unescapeGemini textStep.1)
    if deltaText ≠ [] ∨ thoughtStep.1 ≠ [] then (st', some (deltaText, thoughtStep.1))
    else (st', none)

/-- The clean characterization of the decoder's per-candidate step: a
single last-seen state shared across candidates; the emitted text delta is
the rune-wise suffix beyond the shared previous length, passed through
escape normalization and placeholder stripping; the thought delta is the
raw rune-wise suffix; nothing is emitted when nothing remains. -/
def sharedSuffixStep (st : DeltaState) (rawText rawThoughts : List Char) :
    DeltaState × Option (List Char × List Char) :=
  let dtRaw :=
    if st.lastText.length < rawText.length then rawText.drop st.lastText.length
    else []
  let dth :=
    if st.lastThoughts.length < rawThoughts.length then
      rawThoughts.drop st.lastThoughts.length
    else []
  let st' : DeltaState :=
    ⟨if st.lastText.length < rawText.length then rawText else st.lastText,
     if st.lastThoughts.length < rawThoughts.length then rawThoughts else st.lastThoughts⟩
  let dt := filterImagePlaceholders (unescapeGemini dtRaw)
  (st', if dt = [] ∧ dth = [] then none else some (dt, dth))

/-- Fold `processCandidate` over the candidates of one frame. -/
def processCandidates (st : DeltaState) :
    List (List Char × List Char) → DeltaState × List (List Char × List Char)
  | [] => (st, [])
  | (t, th) :: rest =>
    let step := processCandidate st t th
    let restOut := processCandidates step.1 rest
    (restOut.1, step.2.toList ++ restOut.2)

/-- Fold over a whole stream of decoded frames (each frame a list of
candidates carrying accumulated text and thought). -/
def processFrames (st : DeltaState) :
    List (List (List Char × List Char)) → DeltaState × List (List Char × List Char)
  | [] => (st, [])
  | f :: fs =>
    let step := processCandidates st f
    let restOut := processFrames step.1 fs
    (restOut.1, step.2 ++ restOut.2)

/-- Deltas emitted by the decoder for a stream of decoded frames, starting
from the empty state. -/
def geminiDeltas (frames : List (List (List Char × List Char))) :
    List (List Char × List Char) :=
  (processFrames ⟨[], []⟩ frames).2

/- ## Spec-side model for C1 (refinement target)

Modelled from the spec: "The decoder must track the last-seen text/thought
per candidate index and emit only the rune-wise suffix beyond the previous
length as the delta; if the new string is shorter or unchanged, no delta is
emitted." -/

/-- Modelled from the spec: per-candidate-index tracking; state is a map
from candidate index to last-seen (text, thought). -/
def specDeltasAux (last : Nat → List Char × List Char) :
    List (List (List Char × List Char)) → List (List Char × List Char)
  | [] => []
  | f :: fs =>
    let outs := (f.enum).filterMap (fun p =>
      let prev := last p.1
      let dt := if prev.1.length < p.2.1.length then p.2.1.drop prev.1.length else []
      let dth := if prev.2.length < p.2.2.length then p.2.2.drop prev.2.length else []
      if dt = [] ∧ dth = [] then none else some (dt, dth))
    let last' : Nat → List Char × List Char := fun i =>
      match f.get? i with
      | some c =>
        ((if (last i).1.length < c.1.length then c.1 else (last i).1),
         (if (last i).2.length < c.2.length then c.2 else (last i).2))
      | none => last i
    outs ++ specDeltasAux last' fs

/-- Modelled from the spec: the deltas the spec's per-candidate tracking
would emit. -/
def specDeltasPerCandidate (frames : List (List (List Char × List Char))) :
    List (List Char × List Char) :=
  specDeltasAux (fun _ => ([], [])) frames

/- ## JSON values and the gjson-style access used by the decoder

The decoder parses each frame with `gjson.Parse` and addresses fields by
positional paths such as `"2"`, `"4"`, `"1.0"`, `"37.0.0"`. -/

inductive JsonVal where
  | null
  | boolean (b : Bool)
  | number (raw : List Char)
  | str (s : List Char)
  | arr (elems : List JsonVal)
  | obj (fields : List (List Char × JsonVal))

def jsonIsSpace (c : Char) : Bool :=
  c = ' ' ∨ c = '\t' ∨ c = '\n' ∨ c = '\r'

def skipWs (s : List Char) : List Char := s.dropWhile jsonIsSpace

def hexDigitVal (c : Char) : Option Nat :=
  if '0' ≤ c ∧ c ≤ '9' then some (c.toNat - '0'.toNat)
  else if 'a' ≤ c ∧ c ≤ 'f' then some (c.toNat - 'a'.toNat + 10)
  else if 'A' ≤ c ∧ c ≤ 'F' then some (c.toNat - 'A'.toNat + 10)
  else none

/-- Decode the body of a JSON string literal (after the opening quote),
returning the decoded characters and the remainder after the closing
quote. -/
def parseStringBody : List Char → Option (List Char × List Char)
  | [] => none
  | '"' :: rest => some ([], rest)
  | '\\' :: '"' :: rest =>
    (parseStringBody rest).map (fun p => ('"' :: p.1, p.2))
  | '\\' :: '\\' :: rest =>
    (parseStringBody rest).map (fun p => ('\\' :: p.1, p.2))
  | '\\' :: '/' :: rest =>
    (parseStringBody rest).map (fun p => ('/' :: p.1, p.2))
  | '\\' :: 'b' :: rest =>
    (parseStringBody rest).map (fun p => ('\x08' :: p.1, p.2))
  | '\\' :: 'f' :: rest =>
    (parseStringBody rest).map (fun p => ('\x0c' :: p.1, p.2))
  | '\\' :: 'n' :: rest =>
    (parseStringBody rest).map (fun p => ('\n' :: p.1, p.2))
  | '\\' :: 'r' :: rest =>
    (parseStringBody rest).map (fun p => ('\r' :: p.1, p.2))
  | '\\' :: 't' :: rest =>
    (parseStringBody rest).map (fun p => ('\t' :: p.1, p.2))
  | '\\' :: 'u' :: h1 :: h2 :: h3 :: h4 :: rest =>
    match hexDigitVal h1, hexDigitVal h2, hexDigitVal h3, hexDigitVal h4 with
    | some a, some b, some c, some d =>
      let n := ((a * 16 + b) * 16 + c) * 16 + d
      let ch := if h : n.isValidChar then Char.ofNatAux n h else '�'
      (parseStringBody rest).map (fun p => (ch :: p.1, p.2))
    | _, _, _, _ => none
  | '\\' :: _ => none
  | c :: rest =>
    (parseStringBody rest).map (fun p => (c :: p.1, p.2))

def isNumberChar (c : Char) : Bool :=
  isDigitChar c ∨ c = '-' ∨ c = '+' ∨ c = '.' ∨ c = 'e' ∨ c = 'E'

mutual

/-- Recursive-descent JSON parser (fuel-bounded); returns the value and the
unconsumed remainder. -/
def parseVal : Nat → List Char → Option (JsonVal × List Char)
  | 0, _ => none
  | fuel + 1, cs =>
    match skipWs cs with
    | 'n' :: 'u' :: 'l' :: 'l' :: rest => some (.null, rest)
    | 't' :: 'r' :: 'u' :: 'e' :: rest => some (.boolean true, rest)
    | 'f' :: 'a' :: 'l' :: 's' :: 'e' :: rest => some (.boolean false, rest)
    | '"' :: rest => (parseStringBody rest).map (fun p => (.str p.1, p.2))
    | '[' :: rest => (parseArrItems fuel rest).map (fun p => (.arr p.1, p.2))
    | '\x7b' :: rest => (parseObjItems fuel rest).map (fun p => (.obj p.1, p.2))
    | c :: rest =>
      if c = '-' ∨ isDigitChar c then
        let raw := c :: rest.takeWhile isNumberChar
        some (.number raw, rest.dropWhile isNumberChar)
      else none
    | [] => none

/-- Parse the items of an array (after the opening bracket). -/
def parseArrItems : Nat → List Char → Option (List JsonVal × List Char)
  | 0, _ => none
  | fuel + 1, cs =>
    match skipWs cs with
    | ']' :: rest => some ([], rest)
    | other =>
      match parseVal fuel other with
      | none => none
      | some (v, rest) =>
        match skipWs rest with
        | ',' :: rest' =>
          (parseArrItems fuel rest').map (fun p => (v :: p.1, p.2))
        | ']' :: rest' => some ([v], rest')
        | _ => none

/-- Parse the fields of an object (after the opening brace). -/
def parseObjItems : Nat → List Char → Option (List (List Char × JsonVal) × List Char)
  | 0, _ => none
  | fuel + 1, cs =>
    match skipWs cs with
    | '\x7d' :: rest => some ([], rest)
    | '"' :: rest =>
      match parseStringBody rest with
      | none => none
      | some (key, rest') =>
        match skipWs rest' with
        | ':' :: rest'' =>
          match parseVal fuel rest'' with
          | none => none
          | some (v, rest3) =>
            match skipWs rest3 with
            | ',' :: rest4 =>
              (parseObjItems fuel rest4).map (fun p => ((key, v) :: p.1, p.2))
            | '\x7d' :: rest4 => some ([(key, v)], rest4)
            | _ => none
        | _ => none
    | _ => none

end

/-- Parse a complete JSON document the way `gjson.Parse` reads one value
(leading whitespace skipped, trailing bytes ignored). -/
def parseJson (s : List Char) : Option JsonVal :=
  (parseVal (s.length + 1) s).map (fun p => p.1)

/-- One component of a gjson positional path: index into an array, or a
lookup of the decimal key on an object. -/
def jsonIndex (j : JsonVal) (i : Nat) : Option JsonVal :=
  match j with
  | .arr elems => elems.get? i
  | .obj fields => (fields.find? (fun kv => kv.1 = (toString i).data)).map (·.2)
  | _ => none

/-- gjson `Get` with a purely positional path such as `"37.0.0"`. -/
def jsonGet (j : JsonVal) : List Nat → Option JsonVal
  | [] => some j
  | i :: rest =>
    match jsonIndex j i with
    | some j' => jsonGet j' rest
    | none => none

/-- Serialize a string with JSON escaping (used for the raw form of nested
values, mirroring that gjson `String()` returns the raw JSON of
arrays/objects). -/
def jsonEscapeString (s : List Char) : List Char :=
  s.flatMap (fun c =>
    if c = '"' then ['\\', '"']
    else if c = '\\' then ['\\', '\\']
    else if c = '\n' then ['\\', 'n']
    else if c = '\t' then ['\\', 't']
    else if c = '\r' then ['\\', 'r']
    else [c])

mutual

/-- Serialize a JSON value (canonical whitespace). -/
def serializeJson : JsonVal → List Char
  | .null => String.data ("null")
  | .boolean true => String.data ("true")
  | .boolean false => String.data ("false")
  | .number raw => raw
  | .str s => '"' :: jsonEscapeString s ++ ['"']
  | .arr elems => '[' :: serializeItems elems ++ [']']
  | .obj fields => '\x7b' :: serializeFields fields ++ ['\x7d']

def serializeItems : List JsonVal → List Char
  | [] => []
  | [v] => serializeJson v
  | v :: rest => serializeJson v ++ ',' :: serializeItems rest

def serializeFields : List (List Char × JsonVal) → List Char
  | [] => []
  | [kv] => '"' :: jsonEscapeString kv.1 ++ '"' :: ':' :: serializeJson kv.2
  | kv :: rest =>
    '"' :: jsonEscapeString kv.1 ++ '"' :: ':' :: serializeJson kv.2 ++
      ',' :: serializeFields rest

end

/-- gjson `Result.String()`: empty for missing/null, the literal for
booleans and numbers, the contents for strings, the raw JSON otherwise. -/
def goString : Option JsonVal → List Char
  | none => []
  | some .null => []
  | some (.boolean true) => String.data ("true")
  | some (.boolean false) => String.data ("false")
  | some (.number raw) => raw
  | some (.str s) => s
  | some (.arr elems) => serializeJson (.arr elems)
  | some (.obj fields) => serializeJson (.obj fields)

/- ## Line-level decoding (parseGeminiResponse, handler.go lines 294-341) -/

/-- Decode one preprocessed line into the (rawText, rawThoughts) pairs of
its candidates: the line must parse as an array; for each part, position 2
holds the double-encoded payload; its position 4 holds the candidates;
each candidate carries text at `1.0` and thought at `37.0.0`. -/
def lineCandidates (line : List Char) : List (List Char × List Char) :=
  match parseJson line with
  | some (.arr parts) =>
    parts.flatMap (fun part =>
      let dataStr := goString (jsonGet part [2])
      if dataStr = [] then []
      else
        match parseJson dataStr with
        | some inner =>
          match jsonGet inner [4] with
          | some (.arr cands) =>
            cands.map (fun c =>
              (goString (jsonGet c [1, 0]), goString (jsonGet c [37, 0, 0])))
          | _ => []
        | none => [])
  | _ => []

/-- Preprocess a scanner line: strip the anti-hijacking marker, trim
whitespace. -/
def preprocessLine (line : List Char) : List Char :=
  goTrimSpace (goTrimMarker wireMarker line)

/-- Run the stateful delta extraction over the scanner lines of an upstream
response, collecting all emitted (text, thought) chunks: the full
`parseGeminiResponse`. -/
def parseGeminiLines (st : DeltaState) :
    List (List Char) → DeltaState × List (List Char × List Char)
  | [] => (st, [])
  | line :: rest =>
    let l := preprocessLine line
    if l = [] then parseGeminiLines st rest
    else
      let step := processCandidates st (lineCandidates l)
      let restOut := parseGeminiLines step.1 rest
      (restOut.1, step.2 ++ restOut.2)

/-- Chunks emitted by `parseGeminiResponse` for a list of raw stream
lines. -/
def parseGeminiResponse (lines : List (List Char)) : List (List Char × List Char) :=
  (parseGeminiLines ⟨[], []⟩ lines).2

/-- The concrete frame named by the spec for C4. -/
def specC4Line : List Char :=
  String.data ("[[null,null,\"[null,null,null,[[[\\\"Hi\\\",0,null,null,null,null,null]]]]\"]]")

/-- A frame whose inner payload carries candidates at position 4 and text
at candidate position 1.0, matching what the decoder actually reads. -/
def fixedC4Line : List Char :=
  String.data ("[[null,null,\"[null,null,null,null,[[null,[\\\"Hi\\\"]]]]\"]]")

/- ## Claude streaming block machine (internal/claude/streaming.go)

Events are modelled structurally (the SSE payload text is immaterial to
the block accounting); an emitter that returns the empty string in Go is
modelled as returning no event. -/

inductive ClaudeEvent where
  | messageStart
  | blockStart (index : Nat) (blockType : List Char)
  | blockDelta (index : Nat) (blockType : List Char)
  | blockStop (index : Nat)
  | messageDelta (stopReason : List Char)
  | messageStop
deriving DecidableEq

/-- The `StreamingState` fields consulted by the emitters. -/
structure StreamingState where
  messageStartSent : Bool
  messageStopSent : Bool
  blockIndex : Nat
  currentBlockType : List Char
deriving DecidableEq

def StreamingState.emitMessageStart (s : StreamingState) :
    StreamingState × Option ClaudeEvent :=
  if s.messageStartSent then (s, none)
  else ({ s with messageStartSent := true }, some .messageStart)

def StreamingState.emitContentBlockStart (s : StreamingState) (blockType : List Char) :
    StreamingState × Option ClaudeEvent :=
  ({ s with currentBlockType := blockType }, some (.blockStart s.blockIndex blockType))

def StreamingState.emitContentBlockDelta (s : StreamingState) (blockType : List Char) :
    StreamingState × Option ClaudeEvent :=
  (s, some (.blockDelta s.blockIndex blockType))

def StreamingState.emitContentBlockStop (s : StreamingState) :
    StreamingState × Option ClaudeEvent :=
  ({ s with blockIndex := s.blockIndex + 1, currentBlockType := [] },
   some (.blockStop s.blockIndex))

def StreamingState.emitMessageDelta (s : StreamingState) (stopReason : List Char) :
    StreamingState × Option ClaudeEvent :=
  (s, some (.messageDelta stopReason))

def StreamingState.emitMessageStop (s : StreamingState) :
    StreamingState × Option ClaudeEvent :=
  if s.messageStopSent then (s, none)
  else ({ s with messageStopSent := true }, some .messageStop)

/-- The `StreamProcessor` fields driving the block machine. -/
structure StreamProcessor where
  state : StreamingState
  inThinkingMode : Bool
  inTextMode : Bool
deriving DecidableEq

def initStreamProcessor : StreamProcessor :=
  ⟨⟨false, false, 0, []⟩, false, false⟩

/-- Chain an emitter step, accumulating its optional event. -/
def emitStep (p : StreamProcessor)
    (f : StreamingState → StreamingState × Option ClaudeEvent) :
    StreamProcessor × List ClaudeEvent :=
  let r := f p.state
  ({ p with state := r.1 }, r.2.toList)

/-- Text of a part: element 0, empty when absent or not a string. -/
def partText (part : List JsonVal) : List Char :=
  match part.get? 0 with
  | some (.str s) => s
  | _ => []

/-- Thought marker of a part: element 2 when it is a boolean. -/
def partIsThought (part : List JsonVal) : Bool :=
  match part.get? 2 with
  | some (.boolean b) => b
  | _ => false

/-- The thought branch of `processPart`: close an open text block, open a
thinking block when none is open, emit the thinking delta. -/
def thoughtTransition (p : StreamProcessor) : StreamProcessor × List ClaudeEvent :=
  let s1 :=
    if p.inTextMode then
      let r := emitStep p (StreamingState.emitContentBlockStop)
      ({ r.1 with inTextMode := false }, r.2)
    else (p, [])
  let s2 :=
    if ¬ s1.1.inThinkingMode then
      let r := emitStep s1.1 (fun s => s.emitContentBlockStart ("thinking").data)
      ({ r.1 with inThinkingMode := true }, r.2)
    else (s1.1, [])
  let r3 := emitStep s2.1 (fun s => s.emitContentBlockDelta ("thinking").data)
  (r3.1, s1.2 ++ s2.2 ++ r3.2)

/-- The text branch of `processPart`: close an open thinking block, open a
text block when none is open, emit the text delta. -/
def textTransition (p : StreamProcessor) : StreamProcessor × List ClaudeEvent :=
  let s1 :=
    if p.inThinkingMode then
      let r := emitStep p (StreamingState.emitContentBlockStop)
      ({ r.1 with inThinkingMode := false }, r.2)
    else (p, [])
  let s2 :=
    if ¬ s1.1.inTextMode then
      let r := emitStep s1.1 (fun s => s.emitContentBlockStart ("text").data)
      ({ r.1 with inTextMode := true }, r.2)
    else (s1.1, [])
  let r3 := emitStep s2.1 (fun s => s.emitContentBlockDelta ("text").data)
  (r3.1, s1.2 ++ s2.2 ++ r3.2)

/-- `processPart`: a part is a decoded JSON array; empty parts and empty
text are skipped; otherwise the branch for its kind runs. -/
def processPart (p : StreamProcessor) (part : List JsonVal) :
    StreamProcessor × List ClaudeEvent :=
  if part.length = 0 then (p, [])
  else if partText part = [] then (p, [])
  else if partIsThought part then thoughtTransition p
  else textTransition p

/-- Process a sequence of parts. -/
def processParts (p : StreamProcessor) :
    List (List JsonVal) → StreamProcessor × List ClaudeEvent
  | [] => (p, [])
  | part :: rest =>
    let step := processPart p part
    let restOut := processParts step.1 rest
    (restOut.1, step.2 ++ restOut.2)

/-- `finalize`: close any still-open block (the mode flags are not
cleared), then `message_delta` and the guarded `message_stop`. -/
def finalize (p : StreamProcessor) : StreamProcessor × List ClaudeEvent :=
  let (p1, evs1) :=
    if p.inThinkingMode then emitStep p (StreamingState.emitContentBlockStop)
    else (p, [])
  let (p2, evs2) :=
    if p1.inTextMode then emitStep p1 (StreamingState.emitContentBlockStop)
    else (p1, [])
  let r3 := emitStep p2 (fun s => s.emitMessageDelta ("end_turn").data)
  let r4 := emitStep r3.1 (StreamingState.emitMessageStop)
  (r4.1, evs1 ++ evs2 ++ r3.2 ++ r4.2)

/-- Iterate `finalize` a number of times. -/
def finalizeIter (p : StreamProcessor) : Nat → StreamProcessor × List ClaudeEvent
  | 0 => (p, [])
  | k + 1 =>
    let step := finalize p
    let restOut := finalizeIter step.1 k
    (restOut.1, step.2 ++ restOut.2)

/-- Number of currently open content blocks (at most one). -/
def openCount (p : StreamProcessor) : Nat :=
  if p.inTextMode ∨ p.inThinkingMode then 1 else 0

def isBlockStart : ClaudeEvent → Bool
  | .blockStart _ _ => true
  | _ => false

def isBlockStop : ClaudeEvent → Bool
  | .blockStop _ => true
  | _ => false

def isMessageStop : ClaudeEvent → Bool
  | .messageStop => true
  | _ => false

/- ## Account pool (internal/balancer/balancer.go)

The rotation cursor is a uint64; arithmetic is modelled on `Nat` with an
explicit modulus where the machine width matters. The client type is a
parameter (the Go code holds `*gemini.Client` pointers). -/

def UINT64_LIMIT : Nat := 2 ^ 64

structure AccountEntry (α : Type) where
  client : α
  accountID : List Char
deriving DecidableEq

structure AccountPool (α : Type) where
  entries : List (AccountEntry α)
  index : Nat
deriving DecidableEq

/-- `Next()`: empty pool returns `(nil, "")`; otherwise the uint64 counter
is atomically incremented (wrapping), one is subtracted in uint64
arithmetic, and the entry at that value modulo the list length is
returned. Indexing is modelled with `get?`; the `none` branch is
unreachable because the index is reduced modulo the non-zero length. -/
def AccountPool.next {α : Type} (p : AccountPool α) :
    Option α × List Char × AccountPool α :=
  if p.entries.length = 0 then (none, [], p)
  else
    match p.entries.get?
        ((((p.index + 1) % UINT64_LIMIT + (UINT64_LIMIT - 1)) % UINT64_LIMIT) %
          p.entries.length) with
    | some e => (some e.client, e.accountID,
        { p with index := (p.index + 1) % UINT64_LIMIT })
    | none => (none, [], { p with index := (p.index + 1) % UINT64_LIMIT })

/-- Results of `M` consecutive `Next()` calls with no concurrent
modification of the pool. -/
def AccountPool.nextN {α : Type} (p : AccountPool α) :
    Nat → List (Option α × List Char) × AccountPool α
  | 0 => ([], p)
  | m + 1 =>
    let r := p.next
    let rest := r.2.2.nextN m
    ((r.1, r.2.1) :: rest.1, rest.2)

/-- The pair `Next()` returns for rotation value `i`: the entry at `i`
modulo the list length. -/
def selPair {α : Type} (entries : List (AccountEntry α)) (i : Nat) :
    Option α × List Char :=
  match entries.get? (i % entries.length) with
  | some e => (some e.client, e.accountID)
  | none => (none, [])

/-- How many of the `M` consecutive rotation values starting at `i0` land
on residue `r` modulo `K`. -/
def residCount (i0 M K r : Nat) : Nat :=
  (List.range M).countP (fun j => decide ((i0 + j) % K = r))

/- ## Chat-completions handler head (handler.go lines 127-135) -/

/-- Outcome of the handler's account-selection step. -/
inductive HandlerStep (α : Type) where
  | unavailable (status : Nat) (body : JsonVal)
  | dispatched (client : α) (accountID : List Char)

/-- Field lookup on a JSON object body. -/
def jsonObjField (j : JsonVal) (k : List Char) : Option JsonVal :=
  match j with
  | .obj fields => (fields.find? (fun kv => kv.1 == k)).map (·.2)
  | _ => none

/-- First step of `ChatCompletionHandler`: take an account from the pool;
a nil client yields HTTP 503 with a JSON `error` field. -/
def chatCompletionFirstStep {α : Type} (p : AccountPool α) :
    HandlerStep α × AccountPool α :=
  match p.next with
  | (none, _, p') =>
    (.unavailable 503 (.obj [(("error").data, .str ("No available accounts").data)]), p')
  | (some c, id, p') => (.dispatched c id, p')

/- ## Reconciliation (cmd/server/main.go loadAccountsAsync and
balancer.go ReplaceAccounts)

Go maps are modelled as association lists with overwriting insert; the
concurrent per-account initialization is modelled by an oracle
`initResult` giving the final outcome (a ready client or failure after the
retries). -/

def mapLookup {β : Type} (m : List (List Char × β)) (k : List Char) : Option β :=
  (m.find? (fun kv => kv.1 == k)).map (·.2)

def mapInsert {β : Type} (m : List (List Char × β)) (k : List Char) (v : β) :
    List (List Char × β) :=
  (k, v) :: m.filter (fun kv => ! (kv.1 == k))

/-- The lookup map over the current entries built at the top of
`ReplaceAccounts` (later duplicates overwrite earlier ones, as for a Go
map). -/
def buildEntriesMap {α : Type} (entries : List (AccountEntry α)) :
    List (List Char × α) :=
  entries.foldl (fun m e => mapInsert m e.accountID e.client) []

/-- `ReplaceAccounts`: rebuild the entry list in `newAccountIDs` order,
preferring a freshly initialized client, else carrying over the existing
client, else dropping the account. -/
def replaceAccounts {α : Type} (entries : List (AccountEntry α))
    (newAccountIDs : List (List Char)) (changedClients : List (List Char × α)) :
    List (AccountEntry α) :=
  let oldEntries := buildEntriesMap entries
  newAccountIDs.filterMap (fun a =>
    match mapLookup changedClients a with
    | some c => some ⟨c, a⟩
    | none =>
      match mapLookup oldEntries a with
      | some c => some ⟨c, a⟩
      | none => none)

structure ReconcileResult (α : Type) where
  entries : List (AccountEntry α)
  hashes : List (List Char × List Char)
  reinitialized : List (List Char)

/-- `loadAccountsAsync`: hash comparison partitions the accounts; when
nothing changed the function returns before touching the pool; otherwise
changed accounts are initialized (successful ones populate
`changedClients`) and the pool list is replaced atomically. -/
def loadAccounts {α : Type} (oldHashes : List (List Char × List Char))
    (poolEntries : List (AccountEntry α)) (accountIDs : List (List Char))
    (newHash : List Char → List Char) (initResult : List Char → Option α) :
    ReconcileResult α :=
  let toInit := accountIDs.filter
    (fun a => decide (¬ mapLookup oldHashes a = some (newHash a)))
  if toInit = [] then ⟨poolEntries, oldHashes, []⟩
  else
    let changed := toInit.filterMap (fun a => (initResult a).map (fun c => (a, c)))
    let newHashes := accountIDs.foldl (fun m a => mapInsert m a (newHash a)) []
    ⟨replaceAccounts poolEntries accountIDs changed, newHashes, toInit⟩

/- ## Non-streaming Claude transformation (streaming.go TransformResponse)

The decoded Gemini response structures, restricted to the fields that
`TransformResponse` reads (tool-use `input` payloads and grounding chunk
contents are not consulted beyond presence). -/

structure FunctionCallGo where
  name : List Char
  id : Option (List Char)
deriving DecidableEq

structure GeminiPartGo where
  text : Option (List Char)
  thought : Option Bool
  thoughtSignature : Option (List Char)
  functionCall : Option FunctionCallGo
deriving DecidableEq

structure GroundingMetadataGo where
  webSearchQueries : List (List Char)
  groundingChunks : List Unit
deriving DecidableEq

structure CandidateGo where
  content : Option (List GeminiPartGo)
  finishReason : Option (List Char)
  groundingMetadata : Option GroundingMetadataGo
deriving DecidableEq

/-- The content blocks `TransformResponse` constructs (a tool-use id of
`none` stands for the freshly generated timestamp id). -/
inductive ContentBlockGo where
  | text (t : List Char)
  | thinking (t : List Char) (signature : Option (List Char))
  | toolUse (id : Option (List Char)) (name : List Char)
  | serverToolUse (name : List Char) (query : List Char)
deriving DecidableEq

/-- The finish-reason switch at the head of `TransformResponse`. -/
def mapUpstreamFinish (fr : List Char) : List Char :=
  if fr = ("STOP").data ∨ fr = ("MAX_TOKENS").data then ("end_turn").data
  else if fr = ("SAFETY").data then ("stop_sequence").data
  else if fr = ("RECITATION").data then ("stop_sequence").data
  else if fr = ("TOOL_USE").data then ("tool_use").data
  else ("end_turn").data

/-- The per-part else-if chain of `TransformResponse`, threading the block
list and the stop reason. -/
def transformPartStep (acc : List ContentBlockGo × List Char) (part : GeminiPartGo) :
    List ContentBlockGo × List Char :=
  if part.thought = some true ∧ part.text ≠ none then
    (acc.1 ++ [.thinking (part.text.getD []) part.thoughtSignature], acc.2)
  else if part.text.getD [] ≠ [] then
    (acc.1 ++ [.text (part.text.getD [])], acc.2)
  else
    match part.functionCall with
    | some fc => (acc.1 ++ [.toolUse fc.id fc.name], ("tool_use").data)
    | none => acc

/-- A part that reaches the function-call branch of the else-if chain in
`TransformResponse`: it carries a function call but neither a thinking
marker with text nor non-empty text. -/
def isToolUseBranchPart (part : GeminiPartGo) : Prop :=
  part.functionCall ≠ none ∧
  ¬ (part.thought = some true ∧ part.text ≠ none) ∧
  part.text.getD [] = []

instance : DecidablePred isToolUseBranchPart := fun q => by
  unfold isToolUseBranchPart
  infer_instance

/-- The fallback at the end of `TransformResponse`: an empty block list is
replaced by a single empty text block. -/
def padBlocks (r : List ContentBlockGo × List Char) :
    List ContentBlockGo × List Char :=
  if r.1 = [] then ([.text []], r.2) else r

/-- `TransformResponse` restricted to its content list and stop reason. -/
def transformResponse (candidates : List CandidateGo) :
    List ContentBlockGo × List Char :=
  let result :=
    match candidates.head? with
    | none => (([] : List ContentBlockGo), ("end_turn").data)
    | some cand =>
      let stop0 := match cand.finishReason with
        | some fr => mapUpstreamFinish fr
        | none => ("end_turn").data
      let afterParts := match cand.content with
        | some parts => parts.foldl transformPartStep ([], stop0)
        | none => (([] : List ContentBlockGo), stop0)
      match cand.groundingMetadata with
      | some gm =>
        if 0 < gm.groundingChunks.length then
          (afterParts.1 ++
            [.serverToolUse (("web_search").data) (gm.webSearchQueries.headD [])],
           afterParts.2)
        else afterParts
      | none => afterParts
  padBlocks result

/-- `MapFinishReason` of streaming.go (not used on the non-streaming
path, kept for comparison with the spec's table). -/
def mapFinishReason (fr : List Char) : List Char :=
  if fr = ("STOP").data then ("end_turn").data
  else if fr = ("MAX_TOKENS").data then ("max_tokens").data
  else if fr = ("SAFETY").data then ("stop_sequence").data
  else if fr = ("RECITATION").data then ("stop_sequence").data
  else if fr = ("TOOL_USE").data then ("tool_use").data
  else ("end_turn").data

/- ## Non-streaming Claude messages handler (image_handler.go lines
421-450) -/

/-- The content blocks built by `ClaudeMessagesHandler` for a
non-streaming request from the accumulated text and thinking. -/
def claudeHandlerBlocks (fullText fullThinking : List Char) : List ContentBlockGo :=
  let blocks :=
    (if fullThinking ≠ [] then [ContentBlockGo.thinking fullThinking none] else []) ++
    (if fullText ≠ [] then [ContentBlockGo.text fullText] else [])
  (padBlocks (blocks, [])).1

/- ## Image generation handler (image_handler.go lines 72-77, 106-123) -/

/-- The two clamping statements applied to the requested image count `n`
(a Go `int`). -/
def clampImageCount (n : Int) : Int :=
  let n1 := if n ≤ 0 then 1 else n
  if n1 > 4 then 4 else n1

/-- The generation loop: one `StreamGenerateContent` call per iteration,
`callResult` giving the outcome of each attempt. -/
def imageGenerationCalls {β : Type} (n : Int) (callResult : Nat → β) : List β :=
  (List.range (clampImageCount n).toNat).map callResult

/-- One frame presenting two candidates in a single body part (used to
compare shared-state tracking with per-candidate tracking). -/
def twoCandidateLine : List Char :=
  String.data ("[[null,null,\"[null,null,null,null,[[null,[\\\"ab\\\"]],[null,[\\\"c\\\"]]]]\"]]")

/- ################################################################
   Theorems
   ################################################################ -/

/-- C4 (counterexample): the spec's concrete frame
`)]}'\n[[null,null,"[null,null,null,[[[\"Hi\",0,null,null,null,null,null]]]]"]]`
produces no emitted delta at all — its inner payload holds the candidate
data at position 3 while the decoder reads position 4 — so it does not
produce the claimed single delta `("Hi", "")`. -/
theorem c4_spec_frame_yields_nothing :
    parseGeminiResponse [wireMarker, specC4Line] = [] ∧
    parseGeminiResponse [wireMarker, specC4Line] ≠ [(("Hi").data, ([] : List Char))] := by
  exact ⟨by decide, by decide⟩

/-- C4 (amended): a frame whose inner payload carries the candidates at
position 4 with text at candidate path 1.0 — namely
`)]}'\n[[null,null,"[null,null,null,null,[[null,[\"Hi\"]]]]"]]` — produces
exactly one emitted delta, with text part `"Hi"` and thought part `""`. -/
theorem c4_decoded_hi_frame :
    parseGeminiResponse [wireMarker, fixedC4Line] = [(("Hi").data, ([] : List Char))] := by
  decide

/-- C9: the image-generation handler clamps the requested count to
`[1, 4]` (nonpositive becomes 1, above four becomes 4, values already in
range are kept) and the generation loop performs exactly the clamped
number of upstream calls, hence never more than 4. -/
theorem c9_image_count_clamped {β : Type} (n : Int) (callResult : Nat → β) :
    (imageGenerationCalls n callResult).length = (clampImageCount n).toNat ∧
    1 ≤ clampImageCount n ∧ clampImageCount n ≤ 4 ∧
    (n ≤ 0 → clampImageCount n = 1) ∧
    (4 < n → clampImageCount n = 4) ∧
    (1 ≤ n → n ≤ 4 → clampImageCount n = n) := by
  refine ⟨by simp [imageGenerationCalls], ?_, ?_, ?_, ?_, ?_⟩ <;>
    · unfold clampImageCount
      split <;> simp_all <;> omega

/-- C9 (witness): at the concrete request count −3 the clamp yields 1 and
exactly one upstream call is made. -/
theorem c9_witness :
    (imageGenerationCalls (-3) (fun _ => (0 : Nat))).length = 1 ∧
    clampImageCount (-3) = 1 := by
  have h := c9_image_count_clamped (-3) (fun _ => (0 : Nat))
  exact ⟨h.1.trans (by decide), h.2.2.2.1 (by decide)⟩

/-- C10: non-streaming Claude responses always carry at least one content
block: both the Claude messages handler and `TransformResponse` fall back
to a single empty text block when decoding produced neither text nor
thinking. -/
theorem c10_content_never_empty (candidates : List CandidateGo) (ft fth : List Char) :
    0 < (claudeHandlerBlocks ft fth).length ∧
    0 < (transformResponse candidates).1.length ∧
    claudeHandlerBlocks [] [] = [.text []] ∧
    (transformResponse []).1 = [.text []] := by
  have hpad : ∀ r : List ContentBlockGo × List Char, 0 < (padBlocks r).1.length := by
    intro r
    unfold padBlocks
    split
    · simp
    · rename_i h
      simpa [List.length_pos] using h
  exact ⟨hpad _, hpad _, by decide, by decide⟩

/-- C6: with an empty entry list, `Next()` returns `(nil, "")` leaving the
pool untouched, and the chat-completions handler then answers HTTP 503
with a JSON body carrying an `error` field. -/
theorem c6_empty_pool_503 {α : Type} (p : AccountPool α) (h : p.entries = []) :
    p.next = (none, [], p) ∧
    ∃ body, (chatCompletionFirstStep p).1 = .unavailable 503 body ∧
      (jsonObjField body (("error").data)).isSome := by
  have hnext : p.next = (none, [], p) := by
    unfold AccountPool.next
    rw [if_pos (by simp [h])]
  refine ⟨hnext, .obj [(("error").data, .str ("No available accounts").data)], ?_, by decide⟩
  unfold chatCompletionFirstStep
  rw [hnext]

/-- C1 (counterexample): the decoder does not track the last-seen strings
per candidate index — one shared pair serves all candidates. On the single
frame carrying candidates `"ab"` and `"c"` the per-candidate tracking
described by the claim emits deltas `"ab"` and `"c"`, while the decoder
emits only `"ab"` (the shared last-seen text `"ab"` is not rune-wise
shorter than `"c"`). -/
theorem c1_shared_state_counterexample :
    lineCandidates (preprocessLine twoCandidateLine) =
      [(("ab").data, []), (("c").data, [])] ∧
    parseGeminiResponse [wireMarker, twoCandidateLine] = [(("ab").data, [])] ∧
    specDeltasPerCandidate [[(("ab").data, []), (("c").data, [])]] =
      [(("ab").data, []), (("c").data, [])] ∧
    parseGeminiResponse [wireMarker, twoCandidateLine] ≠
      specDeltasPerCandidate [[(("ab").data, []), (("c").data, [])]] := by
  exact ⟨by decide, by decide, by decide, by decide⟩

/-- C1 (amended): the decoder keeps one last-seen text and one last-seen
thought shared across all candidate indices; on each candidate it emits as
the text delta the rune-wise suffix of the accumulated string beyond the
shared previous rune length — after unescaping the five escaped characters
and stripping image-placeholder URLs — and as the thought delta the raw
rune-wise suffix; when the accumulated string is rune-wise shorter than or
equal to the shared last-seen one, or nothing remains after normalization,
no delta is emitted. -/
theorem c1_delta_extraction_characterization (st : DeltaState)
    (rawText rawThoughts : List Char) :
    processCandidate st rawText rawThoughts = sharedSuffixStep st rawText rawThoughts := by
  have hemptynorm : filterImagePlaceholders (unescapeGemini []) = [] := by decide
  simp only [processCandidate, sharedSuffixStep]
  split_ifs <;>
    first
      | rfl
      | (exfalso; omega)
      | (simp_all; done)
      | (simp_all; omega)

theorem transformPartStep_snd (acc : List ContentBlockGo × List Char)
    (part : GeminiPartGo) :
    (transformPartStep acc part).2 =
      if isToolUseBranchPart part then ("tool_use").data else acc.2 := by
  obtain ⟨pt, pth, psig, pfc⟩ := part
  unfold transformPartStep isToolUseBranchPart
  rcases pfc with _ | fc <;> split_ifs <;>
    simp_all

theorem transformFold_snd (parts : List GeminiPartGo)
    (blocks : List ContentBlockGo) (sr : List Char) :
    (parts.foldl transformPartStep (blocks, sr)).2 =
      if ∃ q ∈ parts, isToolUseBranchPart q then ("tool_use").data else sr := by
  induction parts generalizing blocks sr with
  | nil => simp
  | cons p rest ih =>
    rw [List.foldl_cons]
    have hstep := ih (transformPartStep (blocks, sr) p).1 (transformPartStep (blocks, sr) p).2
    rw [Prod.mk.eta] at hstep
    rw [hstep, transformPartStep_snd]
    by_cases hp : isToolUseBranchPart p <;>
      simp [hp, List.exists_mem_cons_iff]

theorem padBlocks_snd (r : List ContentBlockGo × List Char) :
    (padBlocks r).2 = r.2 := by
  unfold padBlocks
  split <;> rfl

theorem transformResponse_snd (cc : Option (List GeminiPartGo))
    (parts : List GeminiPartGo) (fr : Option (List Char))
    (gm : Option GroundingMetadataGo) (hc : cc = some parts) :
    (transformResponse [⟨cc, fr, gm⟩]).2 =
      if ∃ q ∈ parts, isToolUseBranchPart q then ("tool_use").data
      else
        match fr with
        | some r => mapUpstreamFinish r
        | none => ("end_turn").data := by
  subst hc
  unfold transformResponse
  rw [padBlocks_snd]
  rcases gm with _ | g
  · exact transformFold_snd parts [] _
  · show (if 0 < g.groundingChunks.length then _ else _ : List ContentBlockGo × List Char).2 = _
    split <;> exact transformFold_snd parts [] _

theorem thoughtTransition_counts (p : StreamProcessor)
    (h1 : ¬ (p.inTextMode ∧ p.inThinkingMode)) :
    ¬ ((thoughtTransition p).1.inTextMode ∧ (thoughtTransition p).1.inThinkingMode) ∧
    (thoughtTransition p).1.state.messageStopSent = p.state.messageStopSent ∧
    (thoughtTransition p).2.countP isBlockStart + openCount p =
      (thoughtTransition p).2.countP isBlockStop + openCount (thoughtTransition p).1 ∧
    (thoughtTransition p).2.countP isMessageStop = 0 := by
  obtain ⟨⟨mss, msp, bi, cbt⟩, thk, txt⟩ := p
  rcases thk <;> rcases txt <;>
    simp_all [thoughtTransition, emitStep, openCount,
      StreamingState.emitContentBlockStop, StreamingState.emitContentBlockStart,
      StreamingState.emitContentBlockDelta, isBlockStart, isBlockStop,
      isMessageStop, List.countP_cons]

theorem textTransition_counts (p : StreamProcessor)
    (h1 : ¬ (p.inTextMode ∧ p.inThinkingMode)) :
    ¬ ((textTransition p).1.inTextMode ∧ (textTransition p).1.inThinkingMode) ∧
    (textTransition p).1.state.messageStopSent = p.state.messageStopSent ∧
    (textTransition p).2.countP isBlockStart + openCount p =
      (textTransition p).2.countP isBlockStop + openCount (textTransition p).1 ∧
    (textTransition p).2.countP isMessageStop = 0 := by
  obtain ⟨⟨mss, msp, bi, cbt⟩, thk, txt⟩ := p
  rcases thk <;> rcases txt <;>
    simp_all [textTransition, emitStep, openCount,
      StreamingState.emitContentBlockStop, StreamingState.emitContentBlockStart,
      StreamingState.emitContentBlockDelta, isBlockStart, isBlockStop,
      isMessageStop, List.countP_cons]

theorem processPart_counts (p : StreamProcessor) (part : List JsonVal)
    (h1 : ¬ (p.inTextMode ∧ p.inThinkingMode)) :
    ¬ ((processPart p part).1.inTextMode ∧ (processPart p part).1.inThinkingMode) ∧
    (processPart p part).1.state.messageStopSent = p.state.messageStopSent ∧
    (processPart p part).2.countP isBlockStart + openCount p =
      (processPart p part).2.countP isBlockStop + openCount (processPart p part).1 ∧
    (processPart p part).2.countP isMessageStop = 0 := by
  unfold processPart
  split_ifs
  · exact ⟨h1, rfl, rfl, rfl⟩
  · exact ⟨h1, rfl, rfl, rfl⟩
  · exact thoughtTransition_counts p h1
  · exact textTransition_counts p h1

theorem processParts_counts (parts : List (List JsonVal)) (p : StreamProcessor)
    (h1 : ¬ (p.inTextMode ∧ p.inThinkingMode)) :
    ¬ ((processParts p parts).1.inTextMode ∧ (processParts p parts).1.inThinkingMode) ∧
    (processParts p parts).1.state.messageStopSent = p.state.messageStopSent ∧
    (processParts p parts).2.countP isBlockStart + openCount p =
      (processParts p parts).2.countP isBlockStop + openCount (processParts p parts).1 ∧
    (processParts p parts).2.countP isMessageStop = 0 := by
  induction parts generalizing p with
  | nil => simpa [processParts] using h1
  | cons part rest ih =>
    have hstep := processPart_counts p part h1
    have hrest := ih (processPart p part).1 hstep.1
    simp only [processParts]
    refine ⟨hrest.1, hrest.2.1.trans hstep.2.1, ?_, ?_⟩
    · simp only [List.countP_append]
      omega
    · simp only [List.countP_append]
      omega

theorem finalize_counts (p : StreamProcessor)
    (h1 : ¬ (p.inTextMode ∧ p.inThinkingMode)) :
    (finalize p).2.countP isBlockStop = openCount p ∧
    (finalize p).2.countP isBlockStart = 0 ∧
    ((finalize p).2.countP isMessageStop =
      if p.state.messageStopSent then 0 else 1) ∧
    (finalize p).1.state.messageStopSent = true := by
  obtain ⟨⟨mss, msp, bi, cbt⟩, thk, txt⟩ := p
  rcases thk <;> rcases txt <;> rcases msp <;>
    simp_all [finalize, emitStep, openCount, StreamingState.emitContentBlockStop,
      StreamingState.emitMessageDelta, StreamingState.emitMessageStop,
      isBlockStart, isBlockStop, isMessageStop, List.countP_cons]

theorem finalize_after_stop (p : StreamProcessor)
    (h : p.state.messageStopSent = true) :
    (finalize p).2.countP isMessageStop = 0 ∧
    (finalize p).1.state.messageStopSent = true := by
  obtain ⟨⟨mss, msp, bi, cbt⟩, thk, txt⟩ := p
  rcases thk <;> rcases txt <;>
    simp_all [finalize, emitStep, StreamingState.emitContentBlockStop,
      StreamingState.emitMessageDelta, StreamingState.emitMessageStop,
      isBlockStart, isBlockStop, isMessageStop, List.countP_cons]

theorem finalizeIter_after_stop (k : Nat) (p : StreamProcessor)
    (h : p.state.messageStopSent = true) :
    (finalizeIter p k).2.countP isMessageStop = 0 := by
  induction k generalizing p with
  | zero => simp [finalizeIter]
  | succ k ih =>
    have hstep := finalize_after_stop p h
    simp only [finalizeIter, List.countP_append]
    rw [hstep.1, ih (finalize p).1 hstep.2]

/-- C3: for any sequence of parts processed by the Claude
`StreamProcessor` followed by finalization, the emitted
`content_block_stop` events exactly balance the `content_block_start`
events, and `message_stop` is emitted exactly once no matter how many
times finalization is invoked. -/
theorem c3_block_balance_and_single_stop (parts : List (List JsonVal)) (k : Nat)
    (hk : 1 ≤ k) :
    ((processParts initStreamProcessor parts).2 ++
        (finalize (processParts initStreamProcessor parts).1).2).countP isBlockStop =
      ((processParts initStreamProcessor parts).2 ++
        (finalize (processParts initStreamProcessor parts).1).2).countP isBlockStart ∧
    ((processParts initStreamProcessor parts).2 ++
        (finalizeIter (processParts initStreamProcessor parts).1 k).2).countP
      isMessageStop = 1 := by
  have hrun := processParts_counts parts initStreamProcessor (by simp [initStreamProcessor])
  have hfin := finalize_counts (processParts initStreamProcessor parts).1 hrun.1
  have hstopOff : (processParts initStreamProcessor parts).1.state.messageStopSent = false := by
    rw [hrun.2.1]
    rfl
  constructor
  · simp only [List.countP_append]
    have hopen : openCount initStreamProcessor = 0 := by rfl
    rw [hfin.1, hfin.2.1]
    omega
  · obtain ⟨k', rfl⟩ : ∃ k', k = k' + 1 := ⟨k - 1, by omega⟩
    simp only [finalizeIter, List.countP_append]
    rw [hrun.2.2.2]
    rw [finalizeIter_after_stop k' (finalize (processParts initStreamProcessor parts).1).1
      hfin.2.2.2]
    rw [hfin.2.2.1, hstopOff]
    simp

/-- C3 (witness): a concrete run with one text and one thinking delta and
two finalization calls. -/
theorem c3_witness :
    ((processParts initStreamProcessor
        [[.str ("a").data], [.str ("b").data, .null, .boolean true]]).2 ++
      (finalize (processParts initStreamProcessor
        [[.str ("a").data], [.str ("b").data, .null, .boolean true]]).1).2).countP
        isBlockStop =
      ((processParts initStreamProcessor
        [[.str ("a").data], [.str ("b").data, .null, .boolean true]]).2 ++
        (finalize (processParts initStreamProcessor
          [[.str ("a").data], [.str ("b").data, .null, .boolean true]]).1).2).countP
        isBlockStart ∧
    ((processParts initStreamProcessor
        [[.str ("a").data], [.str ("b").data, .null, .boolean true]]).2 ++
      (finalizeIter (processParts initStreamProcessor
        [[.str ("a").data], [.str ("b").data, .null, .boolean true]]).1 2).2).countP
      isMessageStop = 1 :=
  c3_block_balance_and_single_stop
    [[.str ("a").data], [.str ("b").data, .null, .boolean true]] 2 (by decide)

theorem replaceEsc_of_no_backslash (q : Char) (s : List Char) (h : '\\' ∉ s) :
    replaceEsc q s = s := by
  induction s with
  | nil => rfl
  | cons c rest ih =>
    cases rest with
    | nil => rfl
    | cons d rest' =>
      have hc : c ≠ '\\' := fun hc => h (by simp [hc])
      have htail : '\\' ∉ d :: rest' := fun hm => h (by simp [List.mem_cons] at hm ⊢; tauto)
      rw [replaceEsc, if_neg (fun hand => hc hand.1), ih htail]

theorem unescapeGemini_of_no_backslash (s : List Char) (h : '\\' ∉ s) :
    unescapeGemini s = s := by
  unfold unescapeGemini
  rw [replaceEsc_of_no_backslash _ s h, replaceEsc_of_no_backslash _ s h,
    replaceEsc_of_no_backslash _ s h, replaceEsc_of_no_backslash _ s h,
    replaceEsc_of_no_backslash _ s h]

theorem dropLit_eq (lit : List Char) :
    ∀ s r : List Char, dropLit lit s = some r → s = lit ++ r := by
  induction lit with
  | nil =>
    intro s r h
    simp [dropLit] at h
    simp [h]
  | cons l ls ih =>
    intro s r h
    cases s with
    | nil => simp [dropLit] at h
    | cons c cs =>
      rw [dropLit] at h
      split_ifs at h with hc
      · rw [hc, ih cs r h]
        simp

theorem matchPlaceholderAt_of_no_colon (s : List Char) (h : ':' ∉ s) :
    matchPlaceholderAt s = none := by
  unfold matchPlaceholderAt
  cases hd : dropLit (String.data ("http")) (s.dropWhile reIsSpace) with
  | none => rfl
  | some s2 =>
    dsimp only
    have hs2 : ∀ x ∈ s2, x ∈ s := by
      intro x hx
      apply (List.dropWhile_sublist reIsSpace).subset
      rw [dropLit_eq _ _ _ hd]
      exact List.mem_append_right _ hx
    have hs3 : ∀ x ∈ (if s2.head? = some 's' then s2.tail else s2), x ∈ s := by
      intro x hx
      by_cases hc : s2.head? = some 's'
      · rw [if_pos hc] at hx
        exact hs2 x (List.mem_of_mem_tail hx)
      · rw [if_neg hc] at hx
        exact hs2 x hx
    cases hh : dropLit placeholderHost (if s2.head? = some 's' then s2.tail else s2) with
    | none => rfl
    | some s4 =>
      exfalso
      apply h
      apply hs3
      rw [dropLit_eq _ _ _ hh]
      exact List.mem_append_left _ (by decide)

theorem filterAux_of_no_colon (fuel : Nat) :
    ∀ s : List Char, ':' ∉ s → filterAux fuel s = s := by
  induction fuel with
  | zero => intro s _; rfl
  | succ fuel ih =>
    intro s h
    cases s with
    | nil => rfl
    | cons c rest =>
      rw [filterAux, matchPlaceholderAt_of_no_colon _ h,
        ih rest (fun hm => h (by simp [hm]))]

theorem filterImagePlaceholders_of_no_colon (s : List Char) (h : ':' ∉ s) :
    filterImagePlaceholders s = s :=
  filterAux_of_no_colon s.length s h

theorem normalization_id (s : List Char) (hbs : '\\' ∉ s) (hcol : ':' ∉ s) :
    filterImagePlaceholders (unescapeGemini s) = s := by
  rw [unescapeGemini_of_no_backslash s hbs, filterImagePlaceholders_of_no_colon s hcol]

theorem processCandidate_noGrowth (st : DeltaState) (rt th : List Char)
    (hlen : rt.length ≤ st.lastText.length)
    (hth : th.length ≤ st.lastThoughts.length) :
    processCandidate st rt th = (st, none) := by
  have hemptynorm : filterImagePlaceholders (unescapeGemini []) = [] := by decide
  unfold processCandidate
  split_ifs <;> first | rfl | (exfalso; omega)

theorem processCandidate_extend (t0 f : List Char) (hlen : t0.length < f.length)
    (hbs : '\\' ∉ f) (hcol : ':' ∉ f) :
    processCandidate ⟨t0, []⟩ f [] = (⟨f, []⟩, some (f.drop t0.length, [])) := by
  have hdrop_ne : f.drop t0.length ≠ [] := by
    intro hcontra
    have := congrArg List.length hcontra
    simp at this
    omega
  have hnorm : filterImagePlaceholders (unescapeGemini (f.drop t0.length)) =
      f.drop t0.length :=
    normalization_id _ (fun hm => hbs (List.drop_subset _ _ hm))
      (fun hm => hcol (List.drop_subset _ _ hm))
  simp only [processCandidate]
  split_ifs <;> first | (exfalso; omega) | (simp_all; done) | (simp_all; omega)

theorem chain_prefix_getLastD (f : List Char) (fs : List (List Char))
    (h : List.Chain' (· <+: ·) (f :: fs)) : f <+: (f :: fs).getLastD [] := by
  induction fs generalizing f with
  | nil => simp
  | cons g fs' ih =>
    have h1 : f <+: g := (List.chain'_cons.mp h).1
    have h2 := ih g (List.chain'_cons.mp h).2
    rw [List.getLastD_cons] at h2
    rw [List.getLastD_cons, List.getLastD_cons]
    exact h1.trans h2

theorem processFrames_chain (fs : List (List Char)) (t0 : List Char)
    (hchain : List.Chain' (· <+: ·) (t0 :: fs))
    (hclean : ∀ t ∈ fs, '\\' ∉ t ∧ ':' ∉ t) :
    (processFrames ⟨t0, []⟩ (fs.map (fun t => [(t, [])]))).1 =
      ⟨(t0 :: fs).getLastD [], []⟩ ∧
    ((processFrames ⟨t0, []⟩ (fs.map (fun t => [(t, [])]))).2.map (·.1)).flatten =
      ((t0 :: fs).getLastD []).drop t0.length := by
  induction fs generalizing t0 with
  | nil =>
    refine ⟨by simp [processFrames], ?_⟩
    simp [processFrames, List.drop_length]
  | cons f fs' ih =>
    have hpre : t0 <+: f := (List.chain'_cons.mp hchain).1
    have hch' : List.Chain' (· <+: ·) (f :: fs') := (List.chain'_cons.mp hchain).2
    have hcleanf := hclean f (by simp)
    have hclean' : ∀ t ∈ fs', '\\' ∉ t ∧ ':' ∉ t := fun t ht => hclean t (by simp [ht])
    have ihf := ih f hch' hclean'
    have hlast : ((t0 :: f :: fs').getLastD []) = ((f :: fs').getLastD []) := by
      rw [List.getLastD_cons, List.getLastD_cons, List.getLastD_cons]
    rcases Nat.lt_or_ge t0.length f.length with hlt | hge
    · have hstep := processCandidate_extend t0 f hlt hcleanf.1 hcleanf.2
      have hflast : f <+: (f :: fs').getLastD [] := chain_prefix_getLastD f fs' hch'
      obtain ⟨tail, htail⟩ := hflast
      constructor
      · simp only [List.map_cons, processFrames, processCandidates, hstep, hlast]
        exact ihf.1
      · simp only [List.map_cons, processFrames, processCandidates, hstep, hlast]
        simp only [Option.toList_some, List.map_append, List.map_cons,
          List.flatten_append, List.flatten_cons]
        rw [ihf.2]
        rw [← htail]
        rw [List.drop_append_eq_append_drop, List.drop_append_eq_append_drop]
        rw [List.drop_length, Nat.sub_self]
        have h0 : t0.length - f.length = 0 := by omega
        rw [h0]
        simp
    · have hft : t0 = f := hpre.eq_of_length (le_antisymm hpre.length_le hge)
      subst hft
      have hstep := processCandidate_noGrowth ⟨t0, []⟩ t0 [] le_rfl le_rfl
      constructor
      · simp only [List.map_cons, processFrames, processCandidates, hstep, hlast]
        exact ihf.1
      · simp only [List.map_cons, processFrames, processCandidates, hstep, hlast]
        simp only [Option.toList_none, List.nil_append, List.map_cons]
        exact ihf.2

/-- C2 (counterexample): escape normalization and placeholder stripping
are applied to each emitted delta, so the concatenation of emitted deltas
can differ from the final accumulated text: a single frame carrying the
accumulated text `\<` emits `<`, and a frame whose text embeds an
image-placeholder URL loses it. -/
theorem c2_normalization_counterexample :
    (((geminiDeltas [[(("\\<").data, [])]]).map (·.1)).flatten = ("<").data ∧
      ("<").data ≠ ("\\<").data) ∧
    (((geminiDeltas
        [[(("see https://googleusercontent.com/image_generation_content/0").data,
           [])]]).map (·.1)).flatten = ("see").data ∧
      ("see").data ≠
        ("see https://googleusercontent.com/image_generation_content/0").data) := by
  exact ⟨⟨by decide, by decide⟩, ⟨by decide, by decide⟩⟩

/-- C2 (amended): for frames presenting non-decreasing (prefix-extending)
accumulated text for a single candidate, with text free of backslashes and
colons (so escape normalization and placeholder stripping leave deltas
unchanged), the concatenation of all emitted text deltas equals the final
accumulated text; re-presenting text no longer than the last-seen text
emits nothing; and the frames `"Hel"` then `"Hello"` yield deltas `"Hel"`
then `"lo"`, never `"Hello"` twice. -/
theorem c2_deltas_concat (ts : List (List Char))
    (hchain : List.Chain' (· <+: ·) ts)
    (hclean : ∀ t ∈ ts, '\\' ∉ t ∧ ':' ∉ t) :
    ((geminiDeltas (ts.map (fun t => [(t, [])]))).map (·.1)).flatten =
      ts.getLastD [] ∧
    (∀ st rt th, rt.length ≤ st.lastText.length →
      th.length ≤ st.lastThoughts.length → processCandidate st rt th = (st, none)) ∧
    geminiDeltas [[(("Hel").data, [])], [(("Hello").data, [])]] =
      [(("Hel").data, []), (("lo").data, [])] := by
  refine ⟨?_, fun st rt th h1 h2 => processCandidate_noGrowth st rt th h1 h2, by decide⟩
  have hchain0 : List.Chain' (· <+: ·) ([] :: ts) := by
    cases ts with
    | nil => simp
    | cons t ts' => exact List.chain'_cons.mpr ⟨List.nil_prefix, hchain⟩
  have h := processFrames_chain ts [] hchain0 hclean
  have h2 := h.2
  simp only [List.getLastD_cons, List.length_nil, List.drop_zero] at h2
  exact h2

/-- C2 (witness): the concrete `"Hel"`, `"Hello"` chain. -/
theorem c2_witness :
    ((geminiDeltas ([("Hel").data, ("Hello").data].map (fun t => [(t, [])]))).map
      (·.1)).flatten = [("Hel").data, ("Hello").data].getLastD [] :=
  (c2_deltas_concat [("Hel").data, ("Hello").data]
    (List.chain'_cons.mpr ⟨⟨("lo").data, by decide⟩, by simp⟩) (by decide)).1

/-- C8 (counterexample): a candidate with finish reason STOP whose single
part carries both non-empty text and a function call takes the text branch
of the else-if chain, so the function-call part is present yet the stop
reason stays `end_turn` rather than the claimed `tool_use`. -/
theorem c8_text_and_function_call_counterexample :
    (∃ q ∈ [(⟨some (("hi").data), none, none, some ⟨("f").data, none⟩⟩ : GeminiPartGo)],
       q.functionCall ≠ none) ∧
    (transformResponse [⟨some [⟨some (("hi").data), none, none, some ⟨("f").data, none⟩⟩],
        some (("STOP").data), none⟩]).2 = ("end_turn").data ∧
    ("end_turn").data ≠ (("tool_use").data : List Char) := by
  exact ⟨by decide, by decide, by decide⟩

/-- C8 (amended): in `TransformResponse`, when no part reaches the
function-call branch (a function call accompanied by a thinking marker or
by non-empty text is skipped), finish reasons STOP and MAX_TOKENS map to
`end_turn` and SAFETY and RECITATION map to `stop_sequence`; the presence
of a part that does reach the function-call branch yields `tool_use`. -/
theorem c8_finish_reason_mapping (cc : Option (List GeminiPartGo))
    (parts : List GeminiPartGo) (fr : Option (List Char))
    (gm : Option GroundingMetadataGo) (hc : cc = some parts) :
    ((∀ q ∈ parts, ¬ isToolUseBranchPart q) →
      ((fr = some (("STOP").data) ∨ fr = some (("MAX_TOKENS").data) →
         (transformResponse [⟨cc, fr, gm⟩]).2 = ("end_turn").data) ∧
       (fr = some (("SAFETY").data) ∨ fr = some (("RECITATION").data) →
         (transformResponse [⟨cc, fr, gm⟩]).2 = ("stop_sequence").data))) ∧
    ((∃ q ∈ parts, isToolUseBranchPart q) →
      (transformResponse [⟨cc, fr, gm⟩]).2 = ("tool_use").data) := by
  have hsnd := transformResponse_snd cc parts fr gm hc
  constructor
  · intro hno
    have hnex : ¬ ∃ q ∈ parts, isToolUseBranchPart q := by
      rintro ⟨q, hq, hq'⟩
      exact hno q hq hq'
    rw [if_neg hnex] at hsnd
    constructor
    · rintro (rfl | rfl) <;> rw [hsnd] <;> decide
    · rintro (rfl | rfl) <;> rw [hsnd] <;> decide
  · intro hex
    rw [if_pos hex] at hsnd
    exact hsnd

/-- C8 (witness): a candidate with finish reason SAFETY and a single pure
function-call part is transformed with stop reason `tool_use`. -/
theorem c8_witness :
    (transformResponse [⟨some [⟨none, none, none, some ⟨("f").data, none⟩⟩],
        some (("SAFETY").data), none⟩]).2 = ("tool_use").data := by
  have h := c8_finish_reason_mapping (some [⟨none, none, none, some ⟨("f").data, none⟩⟩])
    [⟨none, none, none, some ⟨("f").data, none⟩⟩] (some (("SAFETY").data)) none rfl
  exact h.2 (by decide)

theorem wrap_idx (L i0 : Nat) (h : i0 < L) :
    ((i0 + 1) % L + (L - 1)) % L = i0 := by
  rcases Nat.lt_or_ge (i0 + 1) L with h1 | h1
  · rw [Nat.mod_eq_of_lt h1]
    have he : i0 + 1 + (L - 1) = i0 + L := by omega
    rw [he, Nat.add_mod_right, Nat.mod_eq_of_lt h]
  · have h2 : i0 + 1 = L := by omega
    rw [h2, Nat.mod_self, Nat.zero_add, Nat.mod_eq_of_lt (by omega)]
    omega

theorem next_spec {α : Type} (p : AccountPool α) (hne : p.entries.length ≠ 0)
    (hidx : p.index < UINT64_LIMIT) :
    p.next = ((selPair p.entries p.index).1, (selPair p.entries p.index).2,
      { p with index := (p.index + 1) % UINT64_LIMIT }) := by
  unfold AccountPool.next
  rw [if_neg hne, wrap_idx UINT64_LIMIT p.index hidx]
  unfold selPair
  cases hq : p.entries.get? (p.index % p.entries.length) <;> rfl

theorem nextN_trace {α : Type} (M : Nat) :
    ∀ p : AccountPool α, p.entries.length ≠ 0 → p.index + M ≤ UINT64_LIMIT →
      (p.nextN M).1 =
        (List.range M).map (fun j => selPair p.entries (p.index + j)) := by
  induction M with
  | zero =>
    intro p _ _
    simp [AccountPool.nextN]
  | succ M ih =>
    intro p h1 h2
    have hidx : p.index < UINT64_LIMIT := by omega
    rw [AccountPool.nextN, next_spec p h1 hidx]
    rcases Nat.lt_or_ge (p.index + 1) UINT64_LIMIT with hlt | hge
    · have hmod : (p.index + 1) % UINT64_LIMIT = p.index + 1 := Nat.mod_eq_of_lt hlt
      have ihp := ih { p with index := (p.index + 1) % UINT64_LIMIT } h1
        (by simp only [hmod]; omega)
      simp only [hmod] at ihp
      dsimp only
      rw [hmod, ihp]
      rw [List.range_succ_eq_map, List.map_cons, List.map_map]
      congr 1
      · apply List.map_congr_left
        intro j hj
        show selPair p.entries (p.index + 1 + j) = selPair p.entries (p.index + (j + 1))
        congr 1
        omega
    · have hM0 : M = 0 := by omega
      subst hM0
      dsimp only
      rw [AccountPool.nextN]
      simp [List.range_succ]

theorem residCount_add (i0 a b K r : Nat) :
    residCount i0 (a + b) K r = residCount i0 a K r + residCount (i0 + a) b K r := by
  unfold residCount
  rw [List.range_add a b, List.countP_append, List.countP_map]
  congr 1
  apply List.countP_congr
  intro j hj
  simp only [Function.comp]
  constructor
  · intro hh
    simp only [decide_eq_true_eq] at hh ⊢
    rw [← Nat.add_assoc] at hh
    exact hh
  · intro hh
    simp only [decide_eq_true_eq] at hh ⊢
    rw [← Nat.add_assoc]
    exact hh

theorem countP_range_eq (K r : Nat) (hr : r < K) :
    (List.range K).countP (fun x => decide (x = r)) = 1 := by
  induction K with
  | zero => omega
  | succ K ih =>
    rw [List.range_succ, List.countP_append]
    rcases Nat.lt_or_ge r K with h | h
    · rw [ih h]
      have : (List.countP (fun x => decide (x = r)) [K]) = 0 := by
        simp
        omega
      rw [this]
    · have hrK : r = K := by omega
      subst hrK
      have h0 : (List.range r).countP (fun x => decide (x = r)) = 0 := by
        apply List.countP_eq_zero.mpr
        intro a ha
        have := List.mem_range.mp ha
        simp
        omega
      rw [h0]
      simp

theorem residCount_full (i0 K r : Nat) (hK : 0 < K) (hr : r < K) :
    residCount i0 K K r = 1 := by
  unfold residCount
  have hcnt : (List.range K).countP (fun j => decide ((i0 + j) % K = r)) =
      ((List.range K).map (fun j => (i0 + j) % K)).countP
        (fun x => decide (x = r)) := by
    rw [List.countP_map]
    apply List.countP_congr
    intro j hj
    simp [Function.comp]
  rw [hcnt]
  have hmapnodup : ((List.range K).map (fun j => (i0 + j) % K)).Nodup := by
    refine List.Nodup.map_on ?_ (List.nodup_range K)
    intro j1 h1 j2 h2 heq
    have h1' : j1 < K := List.mem_range.mp h1
    have h2' : j2 < K := List.mem_range.mp h2
    have hc : j1 % K = j2 % K := Nat.ModEq.add_left_cancel' i0 heq
    rwa [Nat.mod_eq_of_lt h1', Nat.mod_eq_of_lt h2'] at hc
  have hsubset : ((List.range K).map (fun j => (i0 + j) % K)) ⊆ List.range K := by
    intro x hx
    obtain ⟨j, hj, rfl⟩ := List.mem_map.mp hx
    exact List.mem_range.mpr (Nat.mod_lt _ hK)
  have hperm : ((List.range K).map (fun j => (i0 + j) % K)).Perm (List.range K) :=
    List.Subperm.perm_of_length_le (List.Nodup.subperm hmapnodup hsubset) (by simp)
  rw [hperm.countP_eq]
  exact countP_range_eq K r hr

theorem residCount_le_one (i0 s K r : Nat) (hs : s ≤ K) (hK : 0 < K) (hr : r < K) :
    residCount i0 s K r ≤ 1 := by
  have hadd := residCount_add i0 s (K - s) K r
  rw [Nat.add_sub_cancel' hs] at hadd
  have hfull := residCount_full i0 K r hK hr
  omega

theorem residCount_cycles (K r : Nat) (hK : 0 < K) (hr : r < K) :
    ∀ q s i0, residCount i0 (q * K + s) K r = q + residCount (i0 + q * K) s K r := by
  intro q
  induction q with
  | zero =>
    intro s i0
    simp [Nat.zero_mul]
  | succ q ih =>
    intro s i0
    have h1 : (q + 1) * K + s = K + (q * K + s) := by ring
    rw [h1, residCount_add, residCount_full i0 K r hK hr, ih s (i0 + K)]
    have h2 : i0 + K + q * K = i0 + (q + 1) * K := by ring
    rw [h2]
    omega

theorem ceil_div_of_mod_pos (M K : Nat) (hK : 0 < K) (hs : 0 < M % K) :
    (M + K - 1) / K = M / K + 1 := by
  have h1 : K * (M / K) + M % K = M := Nat.div_add_mod M K
  have h2 : M % K < K := Nat.mod_lt _ hK
  have h3 : M + K - 1 = (M % K - 1) + (M / K + 1) * K := by
    have h4 : (M / K + 1) * K = K * (M / K) + K := by ring
    omega
  rw [h3, Nat.add_mul_div_right _ _ hK, Nat.div_eq_of_lt (by omega)]
  omega

theorem selPair_inj {α : Type} (entries : List (AccountEntry α))
    (hnodup : (entries.map (fun e => e.accountID)).Nodup)
    (i r : Nat) (hr : r < entries.length)
    (hsel : selPair entries i = selPair entries r) : i % entries.length = r := by
  have hK : 0 < entries.length := by omega
  have hi : i % entries.length < entries.length := Nat.mod_lt _ hK
  unfold selPair at hsel
  rw [Nat.mod_eq_of_lt hr] at hsel
  rcases hqi : entries.get? (i % entries.length) with _ | ei
  · exact absurd (List.get?_eq_none.mp hqi) (by omega)
  rcases hqr : entries.get? r with _ | er
  · exact absurd (List.get?_eq_none.mp hqr) (by omega)
  rw [hqi, hqr] at hsel
  have hid : ei.accountID = er.accountID := by
    have := congrArg (fun q => q.2) hsel
    simpa using this
  have hmi : i % entries.length < (entries.map (fun e => e.accountID)).length := by
    simpa using hi
  have h3 : (entries.map (fun e => e.accountID)).get? (i % entries.length) =
      (entries.map (fun e => e.accountID)).get? r := by
    rw [List.get?_map, List.get?_map, hqi, hqr]
    simp [hid]
  exact List.get?_inj hmi hnodup h3

theorem selPair_mod {α : Type} (entries : List (AccountEntry α)) (i r : Nat)
    (hr : r < entries.length) (h : i % entries.length = r) :
    selPair entries i = selPair entries r := by
  unfold selPair
  rw [h, Nat.mod_eq_of_lt hr]

/-- C5 (counterexample): with the 64-bit rotation counter one step before
wraparound, a pool of three accounts does not distribute three consecutive
calls fairly: calls from counter value 2^64 − 1 select entries 0, 0, 1, so
the third account is returned 0 times although ⌊3/3⌋ = ⌈3/3⌉ = 1. -/
theorem c5_wraparound_counterexample :
    ((AccountPool.nextN ⟨[⟨0, ("a").data⟩, ⟨1, ("b").data⟩, ⟨2, ("c").data⟩],
        UINT64_LIMIT - 1⟩ 3).1.countP
      (fun x => decide (x = selPair
        [⟨(0 : Nat), ("a").data⟩, ⟨1, ("b").data⟩, ⟨2, ("c").data⟩] 2))) = 0 ∧
    (3 : Nat) / 3 = 1 ∧ (3 + 3 - 1) / 3 = 1 ∧ (0 : Nat) ≠ 1 := by
  exact ⟨by decide, by decide, by decide, by decide⟩

/-- C5 (amended): for a pool of K ≥ 1 accounts with distinct account ids
and M ≥ K consecutive `Next()` calls during which the 64-bit rotation
counter does not wrap around (counter + M ≤ 2^64), each account is
returned either ⌊M/K⌋ or ⌈M/K⌉ times. -/
theorem c5_round_robin_fairness {α : Type} [DecidableEq α] (p : AccountPool α)
    (M r : Nat) (hK : p.entries.length ≠ 0) (hM : p.entries.length ≤ M)
    (hr : r < p.entries.length)
    (hnodup : (p.entries.map (fun e => e.accountID)).Nodup)
    (hwrap : p.index + M ≤ UINT64_LIMIT) :
    (p.nextN M).1.countP (fun x => decide (x = selPair p.entries r)) =
        M / p.entries.length ∨
    (p.nextN M).1.countP (fun x => decide (x = selPair p.entries r)) =
      (M + p.entries.length - 1) / p.entries.length := by
  have hKpos : 0 < p.entries.length := Nat.pos_of_ne_zero hK
  rw [nextN_trace M p hK hwrap, List.countP_map]
  have hcongr : (List.range M).countP
      ((fun x => decide (x = selPair p.entries r)) ∘
        (fun j => selPair p.entries (p.index + j))) =
      residCount p.index M p.entries.length r := by
    unfold residCount
    apply List.countP_congr
    intro j hj
    simp only [Function.comp, decide_eq_true_eq]
    constructor
    · intro hsel
      exact selPair_inj p.entries hnodup (p.index + j) r hr hsel
    · intro hres
      exact selPair_mod p.entries (p.index + j) r hr hres
  rw [hcongr]
  have hdm : p.entries.length * (M / p.entries.length) + M % p.entries.length = M :=
    Nat.div_add_mod M p.entries.length
  have hM' : M / p.entries.length * p.entries.length + M % p.entries.length = M := by
    rw [Nat.mul_comm]
    exact hdm
  have hres : residCount p.index M p.entries.length r =
      M / p.entries.length +
        residCount (p.index + M / p.entries.length * p.entries.length)
          (M % p.entries.length) p.entries.length r := by
    conv_lhs => rw [← hM']
    exact residCount_cycles p.entries.length r hKpos hr
      (M / p.entries.length) (M % p.entries.length) p.index
  have hc1 : residCount (p.index + M / p.entries.length * p.entries.length)
      (M % p.entries.length) p.entries.length r ≤ 1 :=
    residCount_le_one _ _ _ _ (Nat.le_of_lt (Nat.mod_lt _ hKpos)) hKpos hr
  rcases Nat.eq_zero_or_pos (M % p.entries.length) with hs0 | hspos
  · left
    rw [hres, hs0]
    have : residCount (p.index + M / p.entries.length * p.entries.length) 0
        p.entries.length r = 0 := rfl
    rw [this]
    omega
  · have hceil := ceil_div_of_mod_pos M p.entries.length hKpos hspos
    have hcv : residCount (p.index + M / p.entries.length * p.entries.length)
        (M % p.entries.length) p.entries.length r = 0 ∨
      residCount (p.index + M / p.entries.length * p.entries.length)
        (M % p.entries.length) p.entries.length r = 1 := by omega
    rcases hcv with h0 | h1
    · left
      rw [hres, h0]
      omega
    · right
      rw [hres, h1, hceil]

/-- C5 (witness): two accounts, three calls from counter 0 — the first
account is selected twice, which is ⌈3/2⌉. -/
theorem c5_witness :
    ((AccountPool.nextN (⟨[⟨0, ("a").data⟩, ⟨1, ("b").data⟩], 0⟩ : AccountPool Nat)
        3).1.countP
      (fun x => decide (x = selPair [⟨(0 : Nat), ("a").data⟩, ⟨1, ("b").data⟩] 0))) =
        3 / 2 ∨
    ((AccountPool.nextN (⟨[⟨0, ("a").data⟩, ⟨1, ("b").data⟩], 0⟩ : AccountPool Nat)
        3).1.countP
      (fun x => decide (x = selPair [⟨(0 : Nat), ("a").data⟩, ⟨1, ("b").data⟩] 0))) =
        (3 + 2 - 1) / 2 :=
  c5_round_robin_fairness (⟨[⟨0, ("a").data⟩, ⟨1, ("b").data⟩], 0⟩ : AccountPool Nat)
    3 0 (by decide) (by decide) (by decide) (by decide) (by decide)

theorem mapLookup_insert_same {β : Type} (m : List (List Char × β)) (k : List Char)
    (v : β) : mapLookup (mapInsert m k v) k = some v := by
  simp [mapLookup, mapInsert]

theorem find?_filter_ne {β : Type} (k k' : List Char) (h : k' ≠ k)
    (m : List (List Char × β)) :
    (m.filter (fun kv => ! (kv.1 == k))).find? (fun kv => kv.1 == k') =
      m.find? (fun kv => kv.1 == k') := by
  induction m with
  | nil => rfl
  | cons kv rest ih =>
    by_cases hk : kv.1 = k
    · have h2 : (k == k') = false := by
        simp
        exact fun he => h he.symm
      simp [List.filter_cons, List.find?_cons, hk, h2, ih]
    · by_cases hpk : kv.1 = k'
      · simp [List.filter_cons, List.find?_cons, hk, hpk, h]
      · simp [List.filter_cons, List.find?_cons, hk, hpk, ih]

theorem mapLookup_insert_other {β : Type} (m : List (List Char × β))
    (k k' : List Char) (v : β) (h : k' ≠ k) :
    mapLookup (mapInsert m k v) k' = mapLookup m k' := by
  have hne : (k == k') = false := by
    simp
    exact fun he => h he.symm
  simp only [mapLookup, mapInsert, List.find?_cons, hne]
  rw [find?_filter_ne k k' h m]

theorem mapLookup_mem {β : Type} (m : List (List Char × β)) (k : List Char) (v : β)
    (h : mapLookup m k = some v) : (k, v) ∈ m := by
  simp only [mapLookup, Option.map_eq_some'] at h
  obtain ⟨kv, hkv, hv⟩ := h
  have hmem := List.mem_of_find?_eq_some hkv
  have hpred := List.find?_some hkv
  have hk : kv.1 = k := by simpa using hpred
  have : kv = (k, v) := by
    obtain ⟨k1, v1⟩ := kv
    simp_all
  rwa [this] at hmem

theorem buildEntriesMap_lookup_mem {α : Type} (entries : List (AccountEntry α))
    (a : List Char) (c : α) :
    ∀ m : List (List Char × α),
      mapLookup (entries.foldl (fun m e => mapInsert m e.accountID e.client) m) a =
        some c →
      (∃ e ∈ entries, e.accountID = a ∧ e.client = c) ∨ mapLookup m a = some c := by
  induction entries with
  | nil => exact fun m h => .inr h
  | cons e rest ih =>
    intro m h
    rw [List.foldl_cons] at h
    rcases ih _ h with he | hm
    · obtain ⟨e', he', h1, h2⟩ := he
      exact .inl ⟨e', by simp [he'], h1, h2⟩
    · by_cases hae : e.accountID = a
      · refine .inl ⟨e, by simp, hae, ?_⟩
        rw [← hae, mapLookup_insert_same] at hm
        exact Option.some_injective _ hm
      · exact .inr (by
          rwa [mapLookup_insert_other _ _ _ _ (fun hc => hae hc.symm)] at hm)

theorem buildEntriesMap_lookup_of_all {α : Type} (entries : List (AccountEntry α))
    (a : List Char) (c : α) :
    ∀ m : List (List Char × α),
      (∀ e ∈ entries, e.accountID = a → e.client = c) →
      ((∃ e ∈ entries, e.accountID = a) ∨ mapLookup m a = some c) →
      mapLookup (entries.foldl (fun m e => mapInsert m e.accountID e.client) m) a =
        some c := by
  induction entries with
  | nil =>
    intro m _ hd
    rcases hd with ⟨e, he, _⟩ | hm
    · exact absurd he (List.not_mem_nil e)
    · exact hm
  | cons e rest ih =>
    intro m hall hd
    rw [List.foldl_cons]
    by_cases hae : e.accountID = a
    · have hce : e.client = c := hall e (by simp) hae
      by_cases hrest : ∃ e' ∈ rest, e'.accountID = a
      · exact ih _ (fun e' he' => hall e' (by simp [he'])) (.inl hrest)
      · refine ih _ (fun e' he' => hall e' (by simp [he'])) (.inr ?_)
        rw [← hae, mapLookup_insert_same, hce]
    · refine ih _ (fun e' he' => hall e' (by simp [he'])) ?_
      rcases hd with ⟨e', he', ha'⟩ | hm
      · rcases List.mem_cons.mp he' with rfl | hr
        · exact absurd ha' hae
        · exact .inl ⟨e', hr, ha'⟩
      · exact .inr (by
          rwa [mapLookup_insert_other _ _ _ _ (fun hc => hae hc.symm)])

theorem changed_lookup_mem_toInit {α : Type} (toInit : List (List Char))
    (initResult : List Char → Option α) (a : List Char) (c : α)
    (h : mapLookup
      (toInit.filterMap (fun a' => (initResult a').map (fun cl => (a', cl)))) a =
        some c) :
    a ∈ toInit := by
  have hmem := mapLookup_mem _ _ _ h
  obtain ⟨a', ha', heq⟩ := List.mem_filterMap.mp hmem
  obtain ⟨cl, -, hac⟩ := Option.map_eq_some'.mp heq
  have h1 : a' = a := congrArg Prod.fst hac
  subst h1
  exact ha'

/-- C7: an account whose credential hash equals its last-known hash is
never re-initialized and its client object is carried over into the new
pool list; re-running reconciliation with entirely unchanged credentials
performs zero re-initializations and leaves the pool (and the hash map)
unchanged. -/
theorem c7_reconcile_unchanged {α : Type} (oldHashes : List (List Char × List Char))
    (poolEntries : List (AccountEntry α)) (ids : List (List Char))
    (newHash : List Char → List Char) (initResult : List Char → Option α) :
    (∀ a c, mapLookup oldHashes a = some (newHash a) →
      (∀ e ∈ poolEntries, e.accountID = a → e.client = c) →
      (∃ e ∈ poolEntries, e.accountID = a) →
      (a ∉ (loadAccounts oldHashes poolEntries ids newHash initResult).reinitialized ∧
       (∀ e ∈ (loadAccounts oldHashes poolEntries ids newHash initResult).entries,
          e.accountID = a → e.client = c) ∧
       (a ∈ ids →
         ∃ e ∈ (loadAccounts oldHashes poolEntries ids newHash initResult).entries,
           e.accountID = a ∧ e.client = c))) ∧
    ((∀ a ∈ ids, mapLookup oldHashes a = some (newHash a)) →
      loadAccounts oldHashes poolEntries ids newHash initResult =
        ⟨poolEntries, oldHashes, []⟩) := by
  constructor
  · intro a c hhash hall hex
    have hnotInit : ∀ l : List (List Char),
        l = ids.filter (fun a' => decide (¬ mapLookup oldHashes a' = some (newHash a'))) →
        a ∉ l := by
      rintro l rfl hmem
      have := (List.mem_filter.mp hmem).2
      simp at this
      exact this hhash
    unfold loadAccounts
    dsimp only
    split_ifs with hempty
    · refine ⟨by simp, hall, fun _ => ?_⟩
      obtain ⟨e, he, hea⟩ := hex
      exact ⟨e, he, hea, hall e he hea⟩
    · refine ⟨hnotInit _ rfl, ?_, ?_⟩
      · intro e hmem hea
        obtain ⟨b, hb, hfb⟩ := List.mem_filterMap.mp hmem
        rcases hlc : mapLookup (List.filterMap
            (fun a' => (initResult a').map (fun cl => (a', cl)))
            (ids.filter (fun a' =>
              decide (¬ mapLookup oldHashes a' = some (newHash a'))))) b with _ | c''
        · rw [hlc] at hfb
          rcases hold : mapLookup (buildEntriesMap poolEntries) b with _ | c'
          · rw [hold] at hfb
            exact absurd hfb (by simp)
          · rw [hold] at hfb
            have he : e = ⟨c', b⟩ := by
              simpa using hfb.symm
            have hba : b = a := by rw [he] at hea; exact hea
            subst hba
            rcases buildEntriesMap_lookup_mem poolEntries b c' [] hold with hin | hnil
            · obtain ⟨e', he', h1, h2⟩ := hin
              rw [he]
              exact (h2 ▸ hall e' he' h1 : c' = c)
            · exact absurd hnil (by simp [mapLookup])
        · rw [hlc] at hfb
          have he : e = ⟨c'', b⟩ := by simpa using hfb.symm
          have hba : b = a := by rw [he] at hea; exact hea
          subst hba
          exact absurd (changed_lookup_mem_toInit _ _ _ _ hlc) (hnotInit _ rfl)
      · intro hain
        have hchangedNone : mapLookup (List.filterMap
            (fun a' => (initResult a').map (fun cl => (a', cl)))
            (ids.filter (fun a' =>
              decide (¬ mapLookup oldHashes a' = some (newHash a'))))) a = none := by
          rcases hlc : mapLookup (List.filterMap
              (fun a' => (initResult a').map (fun cl => (a', cl)))
              (ids.filter (fun a' =>
                decide (¬ mapLookup oldHashes a' = some (newHash a'))))) a with _ | c''
          · rfl
          · exact absurd (changed_lookup_mem_toInit _ _ _ _ hlc) (hnotInit _ rfl)
        have hold : mapLookup (buildEntriesMap poolEntries) a = some c :=
          buildEntriesMap_lookup_of_all poolEntries a c [] hall (.inl hex)
        refine ⟨⟨c, a⟩, ?_, rfl, rfl⟩
        apply List.mem_filterMap.mpr
        refine ⟨a, hain, ?_⟩
        rw [hchangedNone, hold]
  · intro hall
    have hnil : ids.filter
        (fun a => decide (¬ mapLookup oldHashes a = some (newHash a))) = [] := by
      apply List.filter_eq_nil_iff.mpr
      intro a ha
      simp [hall a ha]
    unfold loadAccounts
    dsimp only
    rw [if_pos hnil]

/-- C7 (witness): concrete reconciliation with two unchanged accounts
carries both clients over and re-initializes nothing. -/
theorem c7_witness :
    (("x").data ∉ (loadAccounts [(("x").data, ("h1").data), (("y").data, ("h2").data)]
        [⟨7, ("x").data⟩, ⟨8, ("y").data⟩] [("x").data, ("y").data]
        (fun a => if a = ("x").data then ("h1").data else ("h2").data)
        (fun _ => (none : Option Nat))).reinitialized) ∧
    loadAccounts [(("x").data, ("h1").data), (("y").data, ("h2").data)]
        [⟨7, ("x").data⟩, ⟨8, ("y").data⟩] [("x").data, ("y").data]
        (fun a => if a = ("x").data then ("h1").data else ("h2").data)
        (fun _ => (none : Option Nat)) =
      ⟨[⟨7, ("x").data⟩, ⟨8, ("y").data⟩],
       [(("x").data, ("h1").data), (("y").data, ("h2").data)], []⟩ := by
  have h := c7_reconcile_unchanged
    [(("x").data, ("h1").data), (("y").data, ("h2").data)]
    [⟨7, ("x").data⟩, ⟨8, ("y").data⟩] [("x").data, ("y").data]
    (fun a => if a = ("x").data then ("h1").data else ("h2").data)
    (fun _ => (none : Option Nat))
  exact ⟨(h.1 (("x").data) 7 (by decide) (by decide) (by decide)).1,
    h.2 (by decide)⟩

/-- C6 (witness): the empty pool over a concrete client type. -/
theorem c6_witness :
    (⟨[], 5⟩ : AccountPool Nat).next = (none, [], (⟨[], 5⟩ : AccountPool Nat)) ∧
    ∃ body, (chatCompletionFirstStep (⟨[], 5⟩ : AccountPool Nat)).1 =
        .unavailable 503 body ∧
      (jsonObjField body (("error").data)).isSome :=
  c6_empty_pool_503 (⟨[], 5⟩ : AccountPool Nat) rfl
